import Mathlib

/-!
Shallow embedding of `src/watapico.c` (watapico: a Raspberry Pi Pico based
cartridge emulator for the Watara Supervision) and proofs of the spec claims.

The C file is a bare-metal firmware: machine integers are modelled as `Nat`
with explicit `% 2 ^ w` where the C types truncate (`uint8_t` buffer cells,
`uint16_t ROM_MASK`, `uint32_t` flash words).  The GPIO bus is modelled by the
raw 32-bit word `gpio_get_all()` returns; the settings flash sector is
modelled by the value of its first page.  `roms.h` (the generated catalog:
`RomEntry`, `rom_entries`, `ROM_COUNT`, `get_rom_by_index`) is not part of the
sources; it is modelled from the spec as an external read-only table
`get_rom_by_index(i) -> (data, size, mask)` with `ROM_COUNT` entries.
-/

namespace Watapico

/-- `#define ADDR_MASK 0x1FFFF` — address bus bits 0-16. -/
def ADDR_MASK : Nat := 0x1FFFF

/-- `#define DATA_MASK (0xFF << 17)` — data bus bits 17-24. -/
def DATA_MASK : Nat := 0xFF <<< 17

/-- `#define READ_MASK (1u << RD_PIN)` with `RD_PIN 29`. -/
def READ_MASK : Nat := 1 <<< 29

/-- `#define PWR_ON_MASK (1u << PWR_ON_PIN)` with `PWR_ON_PIN 25`. -/
def PWR_ON_MASK : Nat := 1 <<< 25

/-- `#define MENU_ROM 0`. -/
def MENU_ROM : Nat := 0

/-- `#define SETTINGS_MAGIC 0x57544150u` — the "WTAP" sentinel. -/
def SETTINGS_MAGIC : Nat := 0x57544150

/-- Range of a C `uint32_t`. -/
def U32 : Nat := 2 ^ 32

/-- Range of a C `uint16_t` (the type of `ROM_MASK`). -/
def U16 : Nat := 2 ^ 16

/-- Modelled from the spec: `roms.h` is not under `src/`, so a catalog entry is
taken from the spec's external-collaborator interface
`get_rom_by_index(i) -> (data, size, mask)`: a byte sequence, its size, and
the entry's addressing mask. -/
structure RomEntry where
  data : List Nat
  size : Nat
  mask : Nat
deriving Repr, DecidableEq

/-- Modelled from the spec: the ROM catalog, an external read-only table.
`entries` is the total lookup `get_rom_by_index` (the spec gives it no range
check) and `count` is `ROM_COUNT`; the catalog proper is `entries` restricted
to indices below `count`. -/
structure RomCatalog where
  entries : Nat → RomEntry
  count : Nat

/-- The first page of the settings flash sector, as the two `uint32_t` words
the firmware reads from it (`SettingsPage.magic`, `SettingsPage.rom_index`);
the `reserved` tail is never read. -/
structure SettingsPage where
  magic : Nat
  rom_index : Nat
deriving Repr, DecidableEq

/-- A freshly erased flash page: every word reads back all-ones. -/
def erasedPage : SettingsPage := { magic := 0xFFFFFFFF, rom_index := 0xFFFFFFFF }

/-- `load_rom_index_from_flash` (watapico.c lines 60-66): return the stored
index when the magic matches and the index is in range, else 0. -/
def load_rom_index_from_flash (count : Nat) (page : SettingsPage) : Nat :=
  if page.magic = SETTINGS_MAGIC ∧ page.rom_index < count then page.rom_index else 0

/-- `save_rom_index_to_flash` (watapico.c lines 68-80): erase the sector and
program a page holding the magic and the index (a `uint32_t`, hence `% U32`). -/
def save_rom_index_to_flash (rom_index : Nat) : SettingsPage :=
  { magic := SETTINGS_MAGIC, rom_index := rom_index % U32 }

/-- `memcpy(rom, data, size)`: bytes `0..size-1` of the buffer come from
`data` (each a `uint8_t`, hence `% 256`), the rest keeps its old content. -/
def copyBytes (rom : Nat → Nat) (data : List Nat) (size : Nat) : Nat → Nat :=
  fun i => if i < size then data.getD i 0 % 256 else rom i

/-- The firmware's mutable globals: the `rom[65536]` buffer (as a byte-valued
function on addresses), `ROM_MASK` (a `uint16_t`), `current_rom` and the
settings flash sector content. -/
structure PicoState where
  rom : Nat → Nat
  romMask : Nat
  currentRom : Nat
  flash : SettingsPage

/-- One observable action of a bus-cycle iteration: the three GPIO calls that
serve a byte, plus the image reload and the flash write of a select gesture. -/
inductive BusEvent where
  | setDirOut (mask : Nat)
  | driveData (value : Nat)
  | setDirIn (mask : Nat)
  | reloadImage (index : Nat)
  | persistIndex (index : Nat)
deriving Repr, DecidableEq

/-- Result of one iteration of the `handle_bus` loop body. -/
structure CycleResult where
  address : Nat
  driven : Nat
  events : List BusEvent
  next : PicoState

/-- One iteration of the `handle_bus` loop body (watapico.c lines 85-102),
entered after the busy-wait has observed the read strobe asserted (low).
`raw` is the `gpio_get_all()` sample used for the address.  The iteration
serves `rom[raw & ROM_MASK]` shifted onto the data lines together with the
power-present bit, tri-states the data lines again, and — only when the menu
image is current and the address is in `0x1000..0x10FF` — switches to the
catalog entry named by the address's low byte and persists that index. -/
def handle_bus_cycle (cat : RomCatalog) (s : PicoState) (raw : Nat) : CycleResult :=
  let address := raw &&& s.romMask
  let data := (s.rom address % 256) <<< 17 ||| PWR_ON_MASK
  let serveEvents : List BusEvent :=
    [.setDirOut DATA_MASK, .driveData data, .setDirIn DATA_MASK]
  if MENU_ROM = s.currentRom ∧ 0x1000 ≤ address ∧ address ≤ 0x10FF then
    let k := address &&& 0xFF
    let e := cat.entries k
    { address := address
      driven := data
      events := serveEvents ++ [.reloadImage k, .persistIndex k]
      next :=
        { rom := copyBytes s.rom e.data e.size
          romMask := e.mask % U16
          currentRom := k
          flash := save_rom_index_to_flash k } }
  else
    { address := address, driven := data, events := serveEvents, next := s }

/-- Run the serving loop over a list of sampled raw bus words, collecting the
final state and the concatenated event trace. -/
def run_cycles (cat : RomCatalog) (s : PicoState) : List Nat → PicoState × List BusEvent
  | [] => (s, [])
  | raw :: raws =>
    let c := handle_bus_cycle cat s raw
    let r := run_cycles cat c.next raws
    (r.1, c.events ++ r.2)

/-- An event that mutates serving state: an image reload or a flash write. -/
def isMutEvent : BusEvent → Bool
  | .reloadImage _ => true
  | .persistIndex _ => true
  | _ => false

/-- In-image offset of the synthesized menu directory (`rom[0x1100]`). -/
def DIR_OFFSET : Nat := 0x1100

/-- Four little-endian bytes of a 32-bit word. -/
def natToBytes4 (n : Nat) : List Nat :=
  [n % 256, n / 256 % 256, n / 65536 % 256, n / 16777216 % 256]

/-- Reassemble a 32-bit word from four little-endian bytes. -/
def bytes4ToNat (bs : List Nat) : Nat :=
  bs.getD 0 0 + bs.getD 1 0 * 256 + bs.getD 2 0 * 65536 + bs.getD 3 0 * 16777216

/-- Modelled from the spec: `roms.h` (and with it the byte layout of
`RomEntry`) is not under `src/`, so the directory record layout follows the
spec's words "catalog-entry metadata records (index/size/mask triples)": each
record serializes the entry's index, size and mask as three 32-bit fields. -/
def serializeEntry (index : Nat) (e : RomEntry) : List Nat :=
  natToBytes4 index ++ natToBytes4 e.size ++ natToBytes4 e.mask

/-- The run of metadata records `memcpy`ed to `rom[0x1101]` at boot:
one record per catalog entry, in index order. -/
def directoryBytes (cat : RomCatalog) : List Nat :=
  ((List.range cat.count).map (fun i => serializeEntry i (cat.entries i))).flatten

/-- The directory synthesis of `main` (watapico.c lines 120-123):
`rom[0x1100] = ROM_COUNT - 1` (a `uint8_t` store, hence `% 256`) followed by
the metadata records at `rom[0x1101..]`. -/
def inject_directory (cat : RomCatalog) (rom : Nat → Nat) : Nat → Nat :=
  let dir := directoryBytes cat
  fun a =>
    if a = DIR_OFFSET then (cat.count - 1) % 256
    else if DIR_OFFSET + 1 ≤ a ∧ a < DIR_OFFSET + 1 + dir.length then
      dir.getD (a - (DIR_OFFSET + 1)) 0
    else rom a

/-- The boot-time state together with the flash writes boot performed. -/
structure BootResult where
  state : PicoState
  flashWrites : List SettingsPage

/-- The boot sequence of `main` (watapico.c lines 105-133), without the
clock/pin one-time init: load the persisted index, copy that catalog entry
into the zero-initialized buffer, synthesize the menu directory when the menu
image was selected, set `ROM_MASK` from the entry, and persist index 0. -/
def boot (cat : RomCatalog) (initFlash : SettingsPage) : BootResult :=
  let current_rom := load_rom_index_from_flash cat.count initFlash
  let e := cat.entries current_rom
  let rom0 : Nat → Nat := fun _ => 0
  let rom1 := copyBytes rom0 e.data e.size
  let rom2 := if MENU_ROM = current_rom then inject_directory cat rom1 else rom1
  let fw := save_rom_index_to_flash 0
  { state := { rom := rom2, romMask := e.mask % U16, currentRom := current_rom, flash := fw }
    flashWrites := [fw] }

/-- Bytes `rom[start] .. rom[start+len-1]` of the buffer. -/
def readBytes (rom : Nat → Nat) (start len : Nat) : List Nat :=
  (List.range len).map (fun j => rom (start + j))

/-- Decode one 12-byte metadata record at offset `off` of the buffer. -/
def decodeRecord (rom : Nat → Nat) (off : Nat) : Nat × Nat × Nat :=
  (bytes4ToNat (readBytes rom off 4),
   bytes4ToNat (readBytes rom (off + 4) 4),
   bytes4ToNat (readBytes rom (off + 8) 4))

/-- Decode the `count` metadata records following the directory byte. -/
def decodeDirectory (rom : Nat → Nat) (count : Nat) : List (Nat × Nat × Nat) :=
  (List.range count).map (fun i => decodeRecord rom (DIR_OFFSET + 1 + 12 * i))

/-- A small concrete catalog used to instantiate the theorems: entry 0 is a
menu-sized image covering the directory region, entry 1 a tiny game. -/
def testEntry0 : RomEntry :=
  { data := List.replicate 0x1200 0xAB, size := 0x1200, mask := 0x1FFF }

def testEntry1 : RomEntry :=
  { data := [0x4C, 0x00, 0x80], size := 3, mask := 0x0003 }

def testCat : RomCatalog :=
  { entries := fun i => if i = 0 then testEntry0 else testEntry1, count := 3 }

/-- A concrete serving state in the menu (`current_rom = 0`). -/
def testMenuState : PicoState :=
  { rom := fun _ => 0, romMask := 0xFFFF, currentRom := 0, flash := erasedPage }

/-- A concrete serving state with a game selected (`current_rom = 2`). -/
def testGameState : PicoState :=
  { rom := fun _ => 0, romMask := 0x0003, currentRom := 2, flash := save_rom_index_to_flash 2 }

/-! ## Helper lemmas -/

set_option maxRecDepth 8192 in
/-- Byte extraction: driving `b << 17 | PWR_ON_MASK` puts exactly `b` on the
data lines (bits 17-24) and sets the power-present bit (bit 25). -/
theorem byte_extract : ∀ b < 256,
    ((b <<< 17 ||| PWR_ON_MASK) >>> 17) &&& 255 = b ∧
    (b <<< 17 ||| PWR_ON_MASK) &&& PWR_ON_MASK = PWR_ON_MASK := by
  decide

theorem getD_replicate_of_lt (n i x : Nat) (h : i < n) :
    (List.replicate n x).getD i 0 = x := by
  induction n generalizing i with
  | zero => omega
  | succ n ih =>
    cases i with
    | zero => rfl
    | succ i => exact ih i (by omega)

/-! ## Claims -/

/-- C3: `load()` returns the persisted index exactly when the stored record is
valid (magic equals the sentinel and the index is below `ROM_COUNT`); for any
other magic — in particular the all-ones content of freshly erased flash — or
an out-of-range index it returns 0.  The function is total, so it never fails
outwardly. -/
theorem load_returns_index_iff_valid (count : Nat) (page : SettingsPage) :
    (page.magic = SETTINGS_MAGIC ∧ page.rom_index < count →
      load_rom_index_from_flash count page = page.rom_index) ∧
    (page.magic ≠ SETTINGS_MAGIC ∨ count ≤ page.rom_index →
      load_rom_index_from_flash count page = 0) ∧
    load_rom_index_from_flash count erasedPage = 0 := by
  refine ⟨fun h => ?_, fun h => ?_, ?_⟩
  · rw [load_rom_index_from_flash, if_pos h]
  · rw [load_rom_index_from_flash, if_neg]
    rintro ⟨h1, h2⟩
    rcases h with h | h
    · exact h h1
    · omega
  · rw [load_rom_index_from_flash, if_neg]
    rintro ⟨h1, _⟩
    rw [erasedPage] at h1
    simp [SETTINGS_MAGIC] at h1

theorem load_returns_index_iff_valid_witness :
    load_rom_index_from_flash 3 { magic := SETTINGS_MAGIC, rom_index := 2 } = 2 ∧
    load_rom_index_from_flash 3 { magic := 0xBAD, rom_index := 2 } = 0 :=
  ⟨(load_returns_index_iff_valid 3 _).1 (by exact ⟨rfl, by decide⟩),
   (load_returns_index_iff_valid 3 _).2.1 (Or.inl (by decide))⟩

/-- C4: the persist/load round-trip is the identity on valid indices:
for `i < ROM_COUNT` (an index fits a `uint32_t`), `save(i); load() == i`. -/
theorem save_load_roundtrip (count i : Nat) (h1 : i < count) (h2 : i < U32) :
    load_rom_index_from_flash count (save_rom_index_to_flash i) = i := by
  rw [save_rom_index_to_flash, load_rom_index_from_flash]
  rw [if_pos]
  · exact Nat.mod_eq_of_lt h2
  · exact ⟨rfl, by rw [Nat.mod_eq_of_lt h2]; exact h1⟩

theorem save_load_roundtrip_witness :
    load_rom_index_from_flash 3 (save_rom_index_to_flash 2) = 2 :=
  save_load_roundtrip 3 2 (by decide) (by decide)

/-- C1: on every bus cycle, after the read strobe is observed asserted, the
loop body first turns the data lines to output, drives `rom[a & ROM_MASK]`
(on bits 17-24) together with the power-present bit, and turns the data lines
back to input; `a` is the sampled raw bus word. -/
theorem serve_drives_masked_byte (cat : RomCatalog) (s : PicoState) (raw : Nat)
    (h : s.rom (raw &&& s.romMask) < 256) :
    (handle_bus_cycle cat s raw).events.take 3 =
      [.setDirOut DATA_MASK, .driveData (handle_bus_cycle cat s raw).driven,
       .setDirIn DATA_MASK] ∧
    ((handle_bus_cycle cat s raw).driven >>> 17) &&& 255 = s.rom (raw &&& s.romMask) ∧
    (handle_bus_cycle cat s raw).driven &&& PWR_ON_MASK = PWR_ON_MASK := by
  have hb : s.rom (raw &&& s.romMask) % 256 = s.rom (raw &&& s.romMask) :=
    Nat.mod_eq_of_lt h
  have he := byte_extract (s.rom (raw &&& s.romMask)) h
  simp only [handle_bus_cycle, hb]
  split
  · exact ⟨rfl, he.1, he.2⟩
  · exact ⟨rfl, he.1, he.2⟩

theorem serve_drives_masked_byte_witness :
    ((handle_bus_cycle testCat testMenuState 0x20).driven >>> 17) &&& 255 =
      testMenuState.rom (0x20 &&& testMenuState.romMask) :=
  (serve_drives_masked_byte testCat testMenuState 0x20 (by decide)).2.1

theorem cycle_romMask_lt (cat : RomCatalog) (s : PicoState) (raw : Nat)
    (h : s.romMask < U16) :
    (handle_bus_cycle cat s raw).next.romMask < U16 := by
  simp only [handle_bus_cycle]
  split
  · exact Nat.mod_lt _ (by decide)
  · exact h

theorem run_romMask_lt (cat : RomCatalog) (raws : List Nat) :
    ∀ s : PicoState, s.romMask < U16 → (run_cycles cat s raws).1.romMask < U16 := by
  induction raws with
  | nil => exact fun s h => h
  | cons raw raws ih =>
    intro s h
    simp only [run_cycles]
    exact ih _ (cycle_romMask_lt cat s raw h)

/-- C5: on every serving cycle of every run starting from boot, the buffer
lookup index `raw & ROM_MASK` is below the buffer capacity 65536: `ROM_MASK`
is a 16-bit quantity in every state the program can hold. -/
theorem lookup_index_in_bounds (cat : RomCatalog) (initFlash : SettingsPage)
    (raws : List Nat) (raw : Nat) :
    raw &&& (run_cycles cat (boot cat initFlash).state raws).1.romMask < 65536 := by
  have h0 : (boot cat initFlash).state.romMask < U16 := by
    simp only [boot]
    exact Nat.mod_lt _ (by decide)
  have h1 := run_romMask_lt cat raws _ h0
  exact Nat.lt_of_le_of_lt Nat.and_le_right h1

theorem cycle_game_noop (cat : RomCatalog) (s : PicoState) (raw : Nat)
    (h : s.currentRom ≠ 0) :
    handle_bus_cycle cat s raw =
      { address := raw &&& s.romMask
        driven := (s.rom (raw &&& s.romMask) % 256) <<< 17 ||| PWR_ON_MASK
        events := [.setDirOut DATA_MASK,
                   .driveData ((s.rom (raw &&& s.romMask) % 256) <<< 17 ||| PWR_ON_MASK),
                   .setDirIn DATA_MASK]
        next := s } := by
  simp only [handle_bus_cycle]
  rw [if_neg]
  rintro ⟨h1, -⟩
  exact h h1.symm

/-- C6: once `current_rom` is non-zero, no sequence of bus cycles changes the
state (image buffer, mask, selected index, flash), and no reload or flash
write event ever occurs: there is no transition back to the menu state. -/
theorem game_state_frozen (cat : RomCatalog) (s : PicoState) (raws : List Nat)
    (h : s.currentRom ≠ 0) :
    (run_cycles cat s raws).1 = s ∧
    ∀ e ∈ (run_cycles cat s raws).2, isMutEvent e = false := by
  revert s
  induction raws with
  | nil =>
    intro s h
    exact ⟨rfl, fun e he => by simp [run_cycles] at he⟩
  | cons raw raws ih =>
    intro s h
    simp only [run_cycles]
    rw [cycle_game_noop cat s raw h]
    obtain ⟨h1, h2⟩ := ih s h
    refine ⟨h1, ?_⟩
    intro e he
    rw [List.mem_append] at he
    rcases he with he | he
    · simp only [List.mem_cons, List.not_mem_nil, or_false] at he
      rcases he with rfl | rfl | rfl <;> rfl
    · exact h2 e he

theorem game_state_frozen_witness :
    (run_cycles testCat testGameState [0x1000, 0x10FF]).1 = testGameState :=
  (game_state_frozen testCat testGameState [0x1000, 0x10FF] (by decide)).1

/-- C2: in the menu state, a bus read at an address in the command window
`0x1000..0x10FF` whose low byte is `k` with `0 < k < ROM_COUNT` makes the loop
set `current_rom = k`, reload the buffer from catalog entry `k`, set
`ROM_MASK` to entry `k`'s mask, and persist `k` — with the reload event
strictly before the persist event, both after the byte was served — so a
subsequent `load()` returns `k`. -/
theorem menu_select_switches_and_persists (cat : RomCatalog) (s : PicoState) (raw : Nat)
    (h0 : s.currentRom = 0)
    (h1 : 0x1000 ≤ raw &&& s.romMask) (h2 : raw &&& s.romMask ≤ 0x10FF)
    (h3 : 0 < (raw &&& s.romMask) &&& 0xFF)
    (h4 : (raw &&& s.romMask) &&& 0xFF < cat.count)
    (h5 : (cat.entries ((raw &&& s.romMask) &&& 0xFF)).mask < U16) :
    (handle_bus_cycle cat s raw).next.currentRom = (raw &&& s.romMask) &&& 0xFF ∧
    (handle_bus_cycle cat s raw).next.rom =
      copyBytes s.rom (cat.entries ((raw &&& s.romMask) &&& 0xFF)).data
        (cat.entries ((raw &&& s.romMask) &&& 0xFF)).size ∧
    (handle_bus_cycle cat s raw).next.romMask =
      (cat.entries ((raw &&& s.romMask) &&& 0xFF)).mask ∧
    load_rom_index_from_flash cat.count (handle_bus_cycle cat s raw).next.flash =
      (raw &&& s.romMask) &&& 0xFF ∧
    (handle_bus_cycle cat s raw).events =
      [.setDirOut DATA_MASK, .driveData (handle_bus_cycle cat s raw).driven,
       .setDirIn DATA_MASK, .reloadImage ((raw &&& s.romMask) &&& 0xFF),
       .persistIndex ((raw &&& s.romMask) &&& 0xFF)] := by
  have hk : (raw &&& s.romMask) &&& 0xFF < U32 :=
    Nat.lt_of_le_of_lt Nat.and_le_right (by decide)
  simp only [handle_bus_cycle]
  rw [if_pos ⟨h0.symm, h1, h2⟩]
  refine ⟨rfl, rfl, Nat.mod_eq_of_lt h5, ?_, rfl⟩
  rw [save_rom_index_to_flash, load_rom_index_from_flash, if_pos]
  · exact Nat.mod_eq_of_lt hk
  · exact ⟨rfl, by rw [Nat.mod_eq_of_lt hk]; exact h4⟩

theorem menu_select_switches_and_persists_witness :
    (handle_bus_cycle testCat testMenuState 0x1002).next.currentRom = 2 ∧
    load_rom_index_from_flash testCat.count
      (handle_bus_cycle testCat testMenuState 0x1002).next.flash = 2 :=
  ⟨(menu_select_switches_and_persists testCat testMenuState 0x1002 rfl
      (by decide) (by decide) (by decide) (by decide) (by decide)).1,
   (menu_select_switches_and_persists testCat testMenuState 0x1002 rfl
      (by decide) (by decide) (by decide) (by decide) (by decide)).2.2.2.1⟩

/-- C9: in the menu state, a command-window read whose low byte `k` is at or
above `ROM_COUNT` is not rejected: the loop still sets `current_rom = k`,
performs the (range-check-free) catalog lookup for `k`, and persists `k`; the
only range validation is `load()`'s, which maps the persisted out-of-range
index back to 0 on the next boot. -/
theorem out_of_range_select_not_rejected (cat : RomCatalog) (s : PicoState) (raw : Nat)
    (h0 : s.currentRom = 0)
    (h1 : 0x1000 ≤ raw &&& s.romMask) (h2 : raw &&& s.romMask ≤ 0x10FF)
    (h3 : cat.count ≤ (raw &&& s.romMask) &&& 0xFF) :
    (handle_bus_cycle cat s raw).next.currentRom = (raw &&& s.romMask) &&& 0xFF ∧
    (handle_bus_cycle cat s raw).next.rom =
      copyBytes s.rom (cat.entries ((raw &&& s.romMask) &&& 0xFF)).data
        (cat.entries ((raw &&& s.romMask) &&& 0xFF)).size ∧
    (handle_bus_cycle cat s raw).next.flash =
      save_rom_index_to_flash ((raw &&& s.romMask) &&& 0xFF) ∧
    load_rom_index_from_flash cat.count (handle_bus_cycle cat s raw).next.flash = 0 := by
  have hk : (raw &&& s.romMask) &&& 0xFF < U32 :=
    Nat.lt_of_le_of_lt Nat.and_le_right (by decide)
  simp only [handle_bus_cycle]
  rw [if_pos ⟨h0.symm, h1, h2⟩]
  refine ⟨rfl, rfl, rfl, ?_⟩
  show load_rom_index_from_flash cat.count
    (save_rom_index_to_flash ((raw &&& s.romMask) &&& 0xFF)) = 0
  rw [save_rom_index_to_flash, load_rom_index_from_flash, if_neg]
  rintro ⟨-, hlt⟩
  have hlt2 : ((raw &&& s.romMask) &&& 0xFF) % U32 < cat.count := hlt
  rw [Nat.mod_eq_of_lt hk] at hlt2
  omega

theorem out_of_range_select_not_rejected_witness :
    (handle_bus_cycle testCat testMenuState 0x1005).next.currentRom = 5 ∧
    load_rom_index_from_flash testCat.count
      (handle_bus_cycle testCat testMenuState 0x1005).next.flash = 0 :=
  ⟨(out_of_range_select_not_rejected testCat testMenuState 0x1005 rfl
      (by decide) (by decide) (by decide)).1,
   (out_of_range_select_not_rejected testCat testMenuState 0x1005 rfl
      (by decide) (by decide) (by decide)).2.2.2⟩

/-- C8: boot performs exactly one flash write, recording the default index 0,
after the active image is loaded and before the serving loop is entered; so
whatever index was loaded at boot, a `load()` between boot and the first
select gesture returns 0. -/
theorem boot_persists_default_once (cat : RomCatalog) (initFlash : SettingsPage)
    (h : 0 < cat.count) :
    (boot cat initFlash).flashWrites = [save_rom_index_to_flash 0] ∧
    (boot cat initFlash).state.flash = save_rom_index_to_flash 0 ∧
    load_rom_index_from_flash cat.count (boot cat initFlash).state.flash = 0 := by
  refine ⟨rfl, rfl, ?_⟩
  have hz : (0 : Nat) % U32 = 0 := Nat.zero_mod U32
  show load_rom_index_from_flash cat.count (save_rom_index_to_flash 0) = 0
  rw [save_rom_index_to_flash, load_rom_index_from_flash, if_pos]
  · exact hz
  · exact ⟨rfl, by rw [hz]; exact h⟩

theorem boot_persists_default_once_witness :
    load_rom_index_from_flash testCat.count (boot testCat erasedPage).state.flash = 0 :=
  (boot_persists_default_once testCat erasedPage (by decide)).2.2

theorem boot_menu_rom_eq (cat : RomCatalog) (initFlash : SettingsPage)
    (hf : load_rom_index_from_flash cat.count initFlash = 0) :
    (boot cat initFlash).state.rom =
      inject_directory cat
        (copyBytes (fun _ => 0) (cat.entries 0).data (cat.entries 0).size) ∧
    (boot cat initFlash).state.currentRom = 0 := by
  simp only [boot, hf]
  rw [if_pos (show MENU_ROM = 0 from rfl)]
  exact ⟨rfl, trivial⟩

/-- C10: the menu directory is synthesized only at boot: a select gesture
whose low byte is 0, taken from the boot menu state, reloads entry 0's raw
catalog bytes in the loop without re-writing the directory, leaving the
system in the menu state with a buffer that (whenever entry 0's raw byte at
the directory offset differs from the directory byte) no longer contains the
directory boot produced. -/
theorem menu_reselect_skips_directory (cat : RomCatalog) (initFlash : SettingsPage) (raw : Nat)
    (hf : load_rom_index_from_flash cat.count initFlash = 0)
    (h1 : 0x1000 ≤ raw &&& (boot cat initFlash).state.romMask)
    (h2 : raw &&& (boot cat initFlash).state.romMask ≤ 0x10FF)
    (h3 : (raw &&& (boot cat initFlash).state.romMask) &&& 0xFF = 0)
    (h4 : DIR_OFFSET < (cat.entries 0).size)
    (h5 : (cat.entries 0).data.getD DIR_OFFSET 0 % 256 ≠ (cat.count - 1) % 256) :
    (handle_bus_cycle cat (boot cat initFlash).state raw).next.currentRom = 0 ∧
    (handle_bus_cycle cat (boot cat initFlash).state raw).next.rom =
      copyBytes (boot cat initFlash).state.rom (cat.entries 0).data (cat.entries 0).size ∧
    (handle_bus_cycle cat (boot cat initFlash).state raw).next.rom DIR_OFFSET ≠
      (boot cat initFlash).state.rom DIR_OFFSET := by
  obtain ⟨hrom, hcur⟩ := boot_menu_rom_eq cat initFlash hf
  simp only [handle_bus_cycle]
  rw [if_pos ⟨hcur.symm, h1, h2⟩, h3]
  refine ⟨rfl, rfl, ?_⟩
  show copyBytes (boot cat initFlash).state.rom (cat.entries 0).data
      (cat.entries 0).size DIR_OFFSET ≠ (boot cat initFlash).state.rom DIR_OFFSET
  rw [copyBytes]
  simp only [if_pos h4]
  rw [hrom, inject_directory]
  simp only [if_pos rfl]
  exact h5

theorem menu_reselect_skips_directory_witness :
    (handle_bus_cycle testCat (boot testCat erasedPage).state 0x1000).next.rom DIR_OFFSET ≠
      (boot testCat erasedPage).state.rom DIR_OFFSET :=
  (menu_reselect_skips_directory testCat erasedPage 0x1000 (by decide) (by decide)
    (by decide) (by decide) (by decide)
    (by
      have hd : (testCat.entries 0).data.getD DIR_OFFSET 0 = 0xAB :=
        getD_replicate_of_lt 0x1200 DIR_OFFSET 0xAB (by decide)
      rw [hd]
      decide)).2.2

theorem serializeEntry_length (index : Nat) (e : RomEntry) :
    (serializeEntry index e).length = 12 := rfl

theorem directoryBytes_length (cat : RomCatalog) :
    (directoryBytes cat).length = 12 * cat.count := by
  rw [directoryBytes, List.length_flatten, List.map_map]
  have hrep : (List.range cat.count).map
      (List.length ∘ fun i => serializeEntry i (cat.entries i)) =
      List.replicate cat.count 12 := by
    rw [List.eq_replicate_iff]
    refine ⟨by simp, ?_⟩
    intro b hb
    rw [List.mem_map] at hb
    obtain ⟨i, -, hib⟩ := hb
    rw [← hib]
    rfl
  rw [hrep, List.sum_replicate, smul_eq_mul]
  omega

theorem flatten_getD_chunk (l : List (List Nat)) (hl : ∀ x ∈ l, x.length = 12) :
    ∀ i j, i < l.length → j < 12 →
      l.flatten.getD (12 * i + j) 0 = (l.getD i []).getD j 0 := by
  induction l with
  | nil =>
    intro i j hi _
    simp at hi
  | cons x xs ih =>
    intro i j hi hj
    have hx : x.length = 12 := hl x (List.mem_cons_self x xs)
    rw [List.flatten_cons]
    cases i with
    | zero =>
      rw [Nat.mul_zero, Nat.zero_add]
      rw [List.getD_append x xs.flatten 0 j (by omega)]
      rfl
    | succ i =>
      rw [List.getD_append_right x xs.flatten 0 (12 * (i + 1) + j) (by omega)]
      have hidx : 12 * (i + 1) + j - x.length = 12 * i + j := by omega
      rw [hidx]
      have hxs := ih (fun y hy => hl y (List.mem_cons_of_mem x hy)) i j
        (by simpa using Nat.lt_of_succ_lt_succ (by simpa using hi)) hj
      exact hxs

theorem inject_directory_record (cat : RomCatalog) (rom : Nat → Nat) (i j : Nat)
    (hi : i < cat.count) (hj : j < 12) :
    inject_directory cat rom (DIR_OFFSET + 1 + (12 * i + j)) =
      (serializeEntry i (cat.entries i)).getD j 0 := by
  have hlen := directoryBytes_length cat
  simp only [inject_directory]
  rw [if_neg (by simp only [DIR_OFFSET]; omega)]
  rw [if_pos (by constructor <;> omega)]
  have hidx : DIR_OFFSET + 1 + (12 * i + j) - (DIR_OFFSET + 1) = 12 * i + j := by omega
  rw [hidx, directoryBytes]
  have hchunks : ∀ x ∈ (List.range cat.count).map
      (fun i => serializeEntry i (cat.entries i)), x.length = 12 := by
    intro x hx
    rw [List.mem_map] at hx
    obtain ⟨a, -, hax⟩ := hx
    rw [← hax]
    rfl
  rw [flatten_getD_chunk _ hchunks i j (by simpa using hi) hj]
  have hget : ((List.range cat.count).map
      (fun i => serializeEntry i (cat.entries i))).getD i [] =
      serializeEntry i (cat.entries i) := by
    rw [List.getD_eq_getElem _ _ (by simpa using hi)]
    simp
  rw [hget]

theorem decodeRecord_of_serialized (g : Nat → Nat) (off : Nat) (index : Nat) (e : RomEntry)
    (hb : ∀ j, j < 12 → g (off + j) = (serializeEntry index e).getD j 0)
    (hi : index < U32) (hs : e.size < U32) (hm : e.mask < U32) :
    decodeRecord g off = (index, e.size, e.mask) := by
  have hi4 : index < 4294967296 := hi
  have hs4 : e.size < 4294967296 := hs
  have hm4 : e.mask < 4294967296 := hm
  have h0 : g (off + 0) = index % 256 := hb 0 (by omega)
  have h1 : g (off + 1) = index / 256 % 256 := hb 1 (by omega)
  have h2 : g (off + 2) = index / 65536 % 256 := hb 2 (by omega)
  have h3 : g (off + 3) = index / 16777216 % 256 := hb 3 (by omega)
  have h4 : g (off + 4) = e.size % 256 := hb 4 (by omega)
  have h5 : g (off + 5) = e.size / 256 % 256 := hb 5 (by omega)
  have h6 : g (off + 6) = e.size / 65536 % 256 := hb 6 (by omega)
  have h7 : g (off + 7) = e.size / 16777216 % 256 := hb 7 (by omega)
  have h8 : g (off + 8) = e.mask % 256 := hb 8 (by omega)
  have h9 : g (off + 9) = e.mask / 256 % 256 := hb 9 (by omega)
  have h10 : g (off + 10) = e.mask / 65536 % 256 := hb 10 (by omega)
  have h11 : g (off + 11) = e.mask / 16777216 % 256 := hb 11 (by omega)
  show (g (off + 0) + g (off + 1) * 256 + g (off + 2) * 65536 + g (off + 3) * 16777216,
        g (off + 4 + 0) + g (off + 4 + 1) * 256 + g (off + 4 + 2) * 65536 +
          g (off + 4 + 3) * 16777216,
        g (off + 8 + 0) + g (off + 8 + 1) * 256 + g (off + 8 + 2) * 65536 +
          g (off + 8 + 3) * 16777216) = (index, e.size, e.mask)
  have e4 : off + 4 + 0 = off + 4 := by omega
  have e5 : off + 4 + 1 = off + 5 := by omega
  have e6 : off + 4 + 2 = off + 6 := by omega
  have e7 : off + 4 + 3 = off + 7 := by omega
  have e8 : off + 8 + 0 = off + 8 := by omega
  have e9 : off + 8 + 1 = off + 9 := by omega
  have e10 : off + 8 + 2 = off + 10 := by omega
  have e11 : off + 8 + 3 = off + 11 := by omega
  rw [e4, e5, e6, e7, e8, e9, e10, e11, h0, h1, h2, h3, h4, h5, h6, h7, h8, h9, h10, h11]
  refine Prod.ext ?_ (Prod.ext ?_ ?_) <;> simp only [] <;> omega

/-- C7: after boot loads index 0 (the menu image), the buffer byte at the
directory offset `0x1100` equals `ROM_COUNT - 1`, and the bytes following it
decode into exactly `ROM_COUNT` metadata records — (index, size, mask)
triples matching the catalog entries. -/
theorem boot_menu_directory (cat : RomCatalog) (initFlash : SettingsPage)
    (hf : load_rom_index_from_flash cat.count initFlash = 0)
    (h1 : 0 < cat.count) (h2 : cat.count ≤ 256)
    (h3 : ∀ i, i < cat.count → (cat.entries i).size < U32 ∧ (cat.entries i).mask < U32) :
    (boot cat initFlash).state.rom DIR_OFFSET = cat.count - 1 ∧
    decodeDirectory (boot cat initFlash).state.rom cat.count =
      (List.range cat.count).map
        (fun i => (i, (cat.entries i).size, (cat.entries i).mask)) := by
  obtain ⟨hrom, -⟩ := boot_menu_rom_eq cat initFlash hf
  rw [hrom]
  constructor
  · simp only [inject_directory]
    rw [if_pos trivial]
    exact Nat.mod_eq_of_lt (by omega)
  · rw [decodeDirectory]
    apply List.map_congr_left
    intro i hmem
    rw [List.mem_range] at hmem
    apply decodeRecord_of_serialized
    · intro j hj
      have hrec := inject_directory_record cat
        (copyBytes (fun _ => 0) (cat.entries 0).data (cat.entries 0).size) i j hmem hj
      rw [show DIR_OFFSET + 1 + 12 * i + j = DIR_OFFSET + 1 + (12 * i + j) from by omega]
      exact hrec
    · exact Nat.lt_of_lt_of_le hmem (Nat.le_trans h2 (by decide))
    · exact (h3 i hmem).1
    · exact (h3 i hmem).2

theorem boot_menu_directory_witness :
    (boot testCat erasedPage).state.rom DIR_OFFSET = testCat.count - 1 :=
  (boot_menu_directory testCat erasedPage (by decide) (by decide) (by decide)
    (by decide)).1

end Watapico

